import Mathlib

/-!
Verification of the retrieval-augmented customer-support core:
a shallow embedding of the knowledge-base parser/formatter/search
(`app/services/knowledge_base.py`), the generation client retry loop
(`app/services/llm_wrapper.py`) and the prompt assembler
(`app/utils/prompt_builder.py`), together with theorems settling the
spec claims about them.

Conventions: Python strings are modelled as `String`/`List Char`
(ASCII-range inputs); the regular-expression calls in the source are
embedded as specialized executable matchers that reproduce the
backtracking semantics of the concrete patterns used
(`Q:\s*(.+?)\s*A:\s*(.+?)(?=\s*Q:|$)` under DOTALL|MULTILINE, the two
markup-stripping substitutions, and `^#.*$` under MULTILINE);
fallible operations return `Except`/`Option`.
-/

namespace CSA

/-- Python `\s` on the ASCII range: the whitespace class used by
`str.split()`, `str.strip()` and the regex `\s*`. -/
def isPyWs (c : Char) : Bool :=
  c = ' ' || c = '\t' || c = '\n' || c = '\r' || c = '\x0b' || c = '\x0c'

/-- Drop the maximal leading whitespace run. -/
def dropWs (l : List Char) : List Char := l.dropWhile isPyWs

/-- The lookahead `(?=\s*Q:|$)` of the Q/A pair pattern, with `$` in
MULTILINE mode (end of text, or immediately before a newline).  Since a
whitespace character is never `Q`, the alternative `\s*Q:` holds exactly
when dropping the maximal whitespace run leaves `Q:`. -/
def lookaheadOk (rest : List Char) : Bool :=
  (match dropWs rest with
   | 'Q' :: ':' :: _ => true
   | _ => false) ||
  (match rest with
   | [] => true
   | '\n' :: _ => true
   | _ => false)

/-- Lazy scan of the second capture group `(.+?)` followed by the
lookahead: accumulate characters one at a time (at least one) and stop
at the first position where the lookahead holds. -/
def matchG2Go (acc : List Char) : List Char → Option (List Char × List Char)
  | [] => if lookaheadOk [] then some (acc.reverse, []) else none
  | c :: r =>
    if lookaheadOk (c :: r) then some (acc.reverse, c :: r)
    else matchG2Go (c :: acc) r

/-- The answer group `(.+?)(?=\s*Q:|$)`: needs at least one character. -/
def matchG2 : List Char → Option (List Char × List Char)
  | [] => none
  | c :: r => matchG2Go [c] r

/-- After the literal `A:`: greedy `\s*` then the lazy answer group.
If everything after the whitespace run is empty, the greedy `\s*`
backtracks by one character so the answer group can consume the last
whitespace character (the lookahead `$` then holds at end of input). -/
def matchAfterA (l : List Char) : Option (List Char × List Char) :=
  let ws := l.takeWhile isPyWs
  let core := l.dropWhile isPyWs
  match core with
  | [] =>
    match ws.reverse with
    | [] => none
    | c :: _ => some ([c], [])
  | _ :: _ => matchG2 core

/-- The tail `\s*A:\s*(.+?)(?=\s*Q:|$)` that must follow the question
group: a whitespace character is never `A`, so only the maximal
whitespace run can precede the literal `A:`. -/
def tryAfterG1 (rest : List Char) : Option (List Char × List Char) :=
  match dropWs rest with
  | 'A' :: ':' :: tl => matchAfterA tl
  | _ => none

/-- Lazy scan of the question group `(.+?)`: accumulate characters one
at a time (at least one) and stop at the first position from which the
rest of the pattern matches. -/
def matchG1Go (acc : List Char) : List Char → Option (List Char × List Char × List Char)
  | [] =>
    match tryAfterG1 [] with
    | some (g2, r) => some (acc.reverse, g2, r)
    | none => none
  | c :: r =>
    match tryAfterG1 (c :: r) with
    | some (g2, rr) => some (acc.reverse, g2, rr)
    | none => matchG1Go (c :: acc) r

/-- The question group needs at least one character. -/
def matchG1 : List Char → Option (List Char × List Char × List Char)
  | [] => none
  | c :: r => matchG1Go [c] r

/-- Greedy `\s*` directly after the literal `Q:`, with backtracking:
try the longest whitespace prefix first, then shorter ones (a shorter
prefix hands the leading whitespace to the question group). -/
def matchW1 (l : List Char) : Nat → Option (List Char × List Char × List Char)
  | 0 => matchG1 l
  | w + 1 =>
    match matchG1 (l.drop (w + 1)) with
    | some r => some r
    | none => matchW1 l w

/-- Match the whole pair pattern starting at a `Q:` already consumed. -/
def matchQTail (l : List Char) : Option (List Char × List Char × List Char) :=
  matchW1 l (l.takeWhile isPyWs).length

/-- Try to match the pair pattern at the current position. -/
def matchAt (l : List Char) : Option (List Char × List Char × List Char) :=
  match l with
  | 'Q' :: ':' :: tl => matchQTail tl
  | _ => none

/-- `re.findall` of the pair pattern: scan left to right, on a match
record the two capture groups and resume at the end of the match
(the lookahead is zero-width), otherwise advance one character. -/
def findallGo : Nat → List Char → List (List Char × List Char)
  | 0, _ => []
  | fuel + 1, l =>
    match matchAt l with
    | some (q, a, rest) => (q, a) :: findallGo fuel rest
    | none =>
      match l with
      | [] => []
      | _ :: tl => findallGo fuel tl

/-- All `(question, answer)` raw capture pairs of the content. -/
def findallQA (l : List Char) : List (List Char × List Char) :=
  findallGo l.length l

mutual

/-- One pass of `re.sub(r'^#.*$', '', content, flags=re.MULTILINE)`:
at a line start, a `#` discards the rest of the line (the terminating
newline is kept, since `.` does not cross it and `$` matches just
before it); any other character is copied. -/
def stripHeadersGo : Bool → List Char → List Char
  | _, [] => []
  | atStart, c :: tl =>
    if atStart && c = '#' then skipHeaderLine tl
    else c :: stripHeadersGo (c = '\n') tl

/-- Skip to the end of the current (header) line. -/
def skipHeaderLine : List Char → List Char
  | [] => []
  | c :: tl =>
    if c = '\n' then '\n' :: stripHeadersGo true tl
    else skipHeaderLine tl

end

/-- Remove every line that starts with `#` (markdown headers), keeping
the line terminators, as the MULTILINE substitution does. -/
def stripHeaders (l : List Char) : List Char := stripHeadersGo true l

/-- Python `str.split()` (no separator): maximal non-whitespace runs. -/
def pySplitGo : Nat → List Char → List (List Char)
  | 0, _ => []
  | fuel + 1, l =>
    let l1 := l.dropWhile isPyWs
    match l1 with
    | [] => []
    | _ :: _ =>
      l1.takeWhile (fun c => !isPyWs c) ::
        pySplitGo fuel (l1.dropWhile (fun c => !isPyWs c))

def pySplit (l : List Char) : List (List Char) := pySplitGo l.length l

/-- `' '.join(words)`. -/
def joinSpace : List (List Char) → List Char
  | [] => []
  | [w] => w
  | w :: ws => w ++ ' ' :: joinSpace ws

/-- Match of `\*{1,2}([^\*]+)\*{1,2}` after the opening star(s): a
greedy nonempty star-free run, then one or two closing stars (greedy). -/
def starAfterOpen (tl : List Char) : Option (List Char × List Char) :=
  let run := tl.takeWhile (fun c => c ≠ '*')
  let rest := tl.dropWhile (fun c => c ≠ '*')
  match run with
  | [] => none
  | _ :: _ =>
    match rest with
    | '*' :: '*' :: r => some (run, r)
    | '*' :: r => some (run, r)
    | _ => none

/-- Try `\*{1,2}([^\*]+)\*{1,2}` at the current position; with two
leading stars the one-star opening cannot succeed where the two-star
opening failed (the run would begin with a star). -/
def starMatchAt : List Char → Option (List Char × List Char)
  | '*' :: '*' :: tl2 => starAfterOpen tl2
  | '*' :: tl1 => starAfterOpen tl1
  | _ => none

/-- `re.sub(r'\*{1,2}([^\*]+)\*{1,2}', r'\1', text)`. -/
def starSubGo : Nat → List Char → List Char
  | 0, l => l
  | fuel + 1, l =>
    match starMatchAt l with
    | some (run, rest) => run ++ starSubGo fuel rest
    | none =>
      match l with
      | [] => []
      | c :: tl => c :: starSubGo fuel tl

def starSub (l : List Char) : List Char := starSubGo l.length l

/-- Try `` `([^`]+)` `` at the current position. -/
def tickMatchAt : List Char → Option (List Char × List Char)
  | '`' :: tl =>
    (let run := tl.takeWhile (fun c => c ≠ '`')
     let rest := tl.dropWhile (fun c => c ≠ '`')
     match run with
     | [] => none
     | _ :: _ =>
       match rest with
       | '`' :: r => some (run, r)
       | _ => none)
  | _ => none

/-- ``re.sub(r'`([^`]+)`', r'\1', text)``. -/
def tickSubGo : Nat → List Char → List Char
  | 0, l => l
  | fuel + 1, l =>
    match tickMatchAt l with
    | some (run, rest) => run ++ tickSubGo fuel rest
    | none =>
      match l with
      | [] => []
      | c :: tl => c :: tickSubGo fuel tl

def tickSub (l : List Char) : List Char := tickSubGo l.length l

/-- Python `str.strip()`. -/
def stripL (l : List Char) : List Char :=
  ((l.dropWhile isPyWs).reverse.dropWhile isPyWs).reverse

/-- `KnowledgeBaseManager._clean_text`: collapse whitespace, strip
bold/italic markers, strip inline-code markers, strip ends. -/
def cleanText (l : List Char) : List Char :=
  stripL (tickSub (starSub (joinSpace (pySplit l))))

/-- `QAPair`: one question/answer entry; the constructor strips both
texts. `index` is the ordinal of the regex match it came from. -/
structure QAPair where
  question : String
  answer : String
  index : Nat
  deriving Repr, DecidableEq

def mkQAPair (q a : List Char) (i : Nat) : QAPair :=
  ⟨String.mk (stripL q), String.mk (stripL a), i⟩

/-- `KnowledgeBaseManager._parse_qa_pairs`: strip markdown headers,
find all pattern matches, clean both groups, keep pairs whose cleaned
question and answer are both nonempty (indices enumerate the matches,
kept or not). -/
def parse_qa_pairs (content : String) : List QAPair :=
  let cleaned := stripHeaders content.data
  let found := findallQA cleaned
  found.enum.filterMap (fun p =>
    let question := cleanText p.2.1
    let answer := cleanText p.2.2
    if question ≠ [] ∧ answer ≠ [] then some (mkQAPair question answer p.1)
    else none)

/-- `str.strip()` at the `String` level. -/
def pyStrip (s : String) : String := String.mk (stripL s.data)

/-- `'\n'.join(parts)` (Python `"\n".join`). -/
def joinNl : List String → String
  | [] => ""
  | [s] => s
  | s :: tl => s ++ "\n" ++ joinNl tl

/-- The three lines contributed by one pair to the context: `Q: …`,
`A: …`, and an empty separator line. -/
def contextParts (pairs : List QAPair) : List String :=
  (pairs.map (fun qa => ["Q: " ++ qa.question, "A: " ++ qa.answer, ""])).flatten

/-- The slice `qa_pairs[:max_pairs] if max_pairs else qa_pairs`: a
`None` or `0` cap is falsy in Python, so the whole list is kept; a
positive cap truncates. -/
def pairsToInclude (pairs : List QAPair) : Option Nat → List QAPair
  | none => pairs
  | some 0 => pairs
  | some (k + 1) => pairs.take (k + 1)

/-- `KnowledgeBaseManager.get_context_for_prompt`. -/
def get_context_for_prompt (pairs : List QAPair) (maxPairs : Option Nat := none) : String :=
  pyStrip (joinNl (contextParts (pairsToInclude pairs maxPairs)))

/-- Lowercased whitespace-token set of a text
(`set(text.lower().split())`). -/
def wordSet (s : String) : Finset String :=
  ((pySplit (s.data.map Char.toLower)).map String.mk).toFinset

/-- The keyword score of one pair against a query:
`(question_matches * 2) + answer_matches` on token-set intersections. -/
def keywordScore (query : String) (qa : QAPair) : Nat :=
  2 * (wordSet query ∩ wordSet qa.question).card +
    (wordSet query ∩ wordSet qa.answer).card

/-- Insert a scored pair after every element of at least its score and
before the first element of strictly smaller score. -/
def insertDesc (x : Nat × QAPair) : List (Nat × QAPair) → List (Nat × QAPair)
  | [] => [x]
  | y :: ys => if y.1 < x.1 then x :: y :: ys else y :: insertDesc x ys

/-- Stable sort by score, descending: the function computed by
`scored_pairs.sort(key=lambda x: x[0], reverse=True)` (Python's sort is
stable, so ties keep their original relative order; inserting each
element in input order behind all already-placed elements of equal or
larger score computes exactly that permutation). -/
def sortByScoreDesc (l : List (Nat × QAPair)) : List (Nat × QAPair) :=
  l.foldl (fun acc x => insertDesc x acc) []

/-- The scored pair list built by `search_by_keywords` before sorting:
each pair with its score, in original order, zero scores dropped. -/
def scoredPairs (pairs : List QAPair) (query : String) : List (Nat × QAPair) :=
  pairs.filterMap (fun qa =>
    let score := keywordScore query qa
    if score > 0 then some (score, qa) else none)

/-- `KnowledgeBaseManager.search_by_keywords`: score every pair, keep
strictly positive scores, sort stably by descending score, return the
top `top_k`. -/
def search_by_keywords (pairs : List QAPair) (query : String) (topK : Nat := 5) :
    List QAPair :=
  ((sortByScoreDesc (scoredPairs pairs query)).take topK).map (fun x => x.2)

/-- Errors the context-selection method can raise: `similarity` hits
the `NotImplementedError` placeholder, any other unknown method the
`ValueError` (the spec's `InvalidSelectionMethod`). -/
inductive CtxError where
  | notImplemented
  | invalidMethod (method : String)
  deriving Repr, DecidableEq

/-- `KnowledgeBaseManager.get_relevant_context`. -/
def get_relevant_context (pairs : List QAPair) (query : String)
    (method : String := "all") : Except CtxError String :=
  if method = "all" then
    .ok (get_context_for_prompt pairs)
  else if method = "keyword" then
    let relevant := search_by_keywords pairs query
    if relevant.isEmpty then
      .ok (get_context_for_prompt pairs)
    else
      .ok (pyStrip (joinNl (contextParts relevant)))
  else if method = "similarity" then
    .error .notImplemented
  else
    .error (.invalidMethod method)

/-- Load failures of the knowledge base. -/
inductive KBError where
  | sourceMissing
  | noEntriesParsed
  deriving Repr, DecidableEq

/-- The mutable state of a `KnowledgeBaseManager`: its entry list.
The source is modelled as `Option String` (`none` = file missing). -/
structure KBState where
  qa_pairs : List QAPair
  deriving Repr, DecidableEq

/-- `KnowledgeBaseManager.load_knowledge_base`: a missing source fails
before touching the state; otherwise the parsed pairs are stored and
only afterwards checked for emptiness (so a zero-entry parse leaves the
empty list behind). Returns the state after the call and the raised
error, if any. -/
def load_knowledge_base (st : KBState) (source : Option String) :
    KBState × Option KBError :=
  match source with
  | none => (st, some .sourceMissing)
  | some content =>
    let pairs := parse_qa_pairs content
    let st' : KBState := { qa_pairs := pairs }
    if pairs.isEmpty then (st', some .noEntriesParsed) else (st', none)

/-- `KnowledgeBaseManager.reload`: clears `qa_pairs` first, then runs
`load_knowledge_base`. -/
def reload (st : KBState) (source : Option String) : KBState × Option KBError :=
  load_knowledge_base { st with qa_pairs := [] } source

/-- One backend reply to `POST /api/generate`, as seen by the client:
a timeout, an HTTP status error, or a 200 response whose JSON `response`
field holds the given text (absent means the empty string). -/
inductive BackendResult where
  | timeout
  | statusError (code : Nat)
  | success (text : String)
  deriving Repr, DecidableEq

/-- Failures of `OllamaClient.generate`: `connectionError` is the
`OllamaConnectionException` after exhausted timeout retries (carrying
the attempt count it reports), `generationError` is the `LLMException`
(status error, or empty payload). -/
inductive GenError where
  | connectionError (attempts : Nat)
  | generationError (statusCode : Option Nat)
  deriving Repr, DecidableEq

/-- The retry loop of `OllamaClient.generate`, from a given attempt
index: a backend behaviour maps each attempt index to its result.
Returns the outcome together with the number of attempts consumed.
An empty `response` text raises the `LLMException` (re-wrapped by the
catch-all handler, still a generation error); a status error raises
immediately; a timeout retries while `attempt < retry_count`, else
raises the connection error. -/
def generateFrom (backend : Nat → BackendResult) (retry_count : Nat)
    (attempt : Nat) : (Except GenError String) × Nat :=
  match backend attempt with
  | .success text =>
    if text = "" then (.error (.generationError none), attempt + 1)
    else (.ok (pyStrip text), attempt + 1)
  | .statusError code => (.error (.generationError (some code)), attempt + 1)
  | .timeout =>
    if attempt < retry_count then generateFrom backend retry_count (attempt + 1)
    else (.error (.connectionError (retry_count + 1)), attempt + 1)
termination_by retry_count - attempt
decreasing_by omega

/-- `OllamaClient.generate` with its `for attempt in range(retry_count + 1)`
loop, starting at attempt 0. -/
def generate (backend : Nat → BackendResult) (retry_count : Nat := 2) :
    (Except GenError String) × Nat :=
  generateFrom backend retry_count 0

/-- `self.model.split(":")[0]`: the base name before the first `:`
(the whole identifier when there is no tag). -/
def modelBase (model : String) : String :=
  String.mk (model.data.takeWhile (fun c => c ≠ ':'))

/-- Python's substring test `needle in hay`. -/
def containsSub (needle hay : List Char) : Bool :=
  match hay with
  | [] => needle.isEmpty
  | _ :: tl => (needle.isPrefixOf hay : Bool) || containsSub needle tl

/-- `OllamaClient.check_model_available`: the `GET /api/tags` outcome is
modelled as `none` (network failure) or `some (status, names)` (the
listed model names). On a 200 the check is `any(model_base in m for m
in models)` — substring containment, not a prefix test. -/
def check_model_available (model : String) :
    Option (Nat × List String) → Bool
  | none => false
  | some (status, names) =>
    if status = 200 then
      names.any (fun m => containsSub (modelBase model).data m.data)
    else false

/-- The fixed text of `PromptBuilder.build_customer_support_prompt` up
to the interpolated context (with the default company name, as the
wrapper's `build_prompt` always passes `company_name="our company"`). -/
def promptHead : String :=
  "You are a helpful customer support assistant for our company. " ++
  "Use the following knowledge base to answer the customer's question " ++
  "accurately and concisely.\n\nKnowledge Base:\n"

/-- The fixed text between the context block and the question: the
numbered instruction block. -/
def promptInstructions : String :=
  "\n\nInstructions:\n" ++
  "1. Answer based ONLY on the information provided in the knowledge base above\n" ++
  "2. If the exact answer isn't in the knowledge base, provide the most relevant information available\n" ++
  "3. Be concise and direct in your response\n" ++
  "4. Maintain a professional and friendly tone\n" ++
  "5. If you cannot find relevant information, politely say so and suggest contacting support directly\n" ++
  "6. Do not make up information that isn't in the knowledge base" ++
  "\n\nCustomer Question: "

/-- The trailing generation cue. -/
def promptTail : String := "\n\nAnswer:"

/-- `PromptBuilder.build_customer_support_prompt` with
`include_examples=False` (the only call mode used by the wrapper). -/
def build_customer_support_prompt (question context : String) : String :=
  promptHead ++ context ++ promptInstructions ++ question ++ promptTail

/-- Count the lines of a text that start with a digit followed by
`.` — the numbered instructions of the prompt template. -/
def numberedLineCount (s : String) : Nat :=
  ((s.data.splitOn '\n').filter (fun line =>
    match line with
    | c :: '.' :: _ => c.isDigit
    | _ => false)).length

/-- A character that survives every normalization step untouched:
not whitespace, not an emphasis or inline-code marker. -/
def goodChar (c : Char) : Bool :=
  !isPyWs c && c ≠ '*' && c ≠ '`'

/-- A character allowed in a well-spaced text: a plain character or a
single separating space. -/
def safeChar (c : Char) : Bool := c = ' ' || goodChar c

/-- No trailing space and no two adjacent spaces (a property closed
under taking suffixes, which the scan inductions rely on). -/
def okSpacing : List Char → Bool
  | [] => true
  | [c] => c ≠ ' '
  | c :: d :: tl => !(c = ' ' && d = ' ') && okSpacing (d :: tl)

/-- Texts on which parsing and formatting behave transparently:
nonempty, only plain characters separated by single internal spaces,
and free of the `Q:` / `A:` markers.  Cleaned entry texts outside this
set can change under a format/re-parse round trip. -/
def safeText (l : List Char) : Bool :=
  !l.isEmpty &&
  l.all safeChar &&
  (match l.head? with | some ' ' => false | _ => true) &&
  okSpacing l &&
  !containsSub ['Q', ':'] l &&
  !containsSub ['A', ':'] l

/-- The pair lists the round-trip theorem quantifies over. -/
def SafePairs (pairs : List QAPair) : Prop :=
  ∀ qa ∈ pairs, safeText qa.question.data = true ∧ safeText qa.answer.data = true

instance (pairs : List QAPair) : Decidable (SafePairs pairs) :=
  List.decidableBAll _ pairs

/-- The `Q: …\nA: …` block one pair contributes to the context text. -/
def qaBlock (qa : QAPair) : List Char :=
  'Q' :: ':' :: ' ' :: qa.question.data ++
    '\n' :: 'A' :: ':' :: ' ' :: qa.answer.data

/-- The character sequence `get_context_for_prompt` produces for a
pair list (after the final strip removes the trailing newline):
blocks separated by blank lines. -/
def fmtData : List QAPair → List Char
  | [] => []
  | [qa] => qaBlock qa
  | qa :: tl => qaBlock qa ++ '\n' :: '\n' :: fmtData tl

/-- The tails the answer scan can run into: end of text, or the
newline opening the separator before the next block. -/
def GoodTail (tail : List Char) : Prop :=
  tail = [] ∨ ∃ t, tail = '\n' :: t

/-- Score order of the sorted list, as a pairwise relation. -/
def ScoreGE (a b : Nat × QAPair) : Prop := b.1 ≤ a.1

end CSA

namespace CSA

/-! ## Claim theorems -/

/-- C8 (counterexample): the round trip is not the identity.  The
source `"Q: hi\nA: a * b * c\n"` loads successfully to one entry whose
normalized answer is `"a  b  c"` (stripping the emphasis markers leaves
double spaces — normalization is not idempotent); formatting that
knowledge base and re-parsing collapses them to `"a b c"`, so the
re-parsed entry sequence differs from the loaded one. -/
theorem C8_counterexample :
    parse_qa_pairs "Q: hi\nA: a * b * c\n" = [⟨"hi", "a  b  c", 0⟩] ∧
    (parse_qa_pairs
        (get_context_for_prompt (parse_qa_pairs "Q: hi\nA: a * b * c\n") none)).map
      (fun p => (p.question, p.answer)) = [("hi", "a b c")] ∧
    (cleanText "a  b  c".data ≠ "a  b  c".data) ∧
    [(("hi" : String), ("a b c" : String))] ≠ [("hi", "a  b  c")] := by
  exact ⟨by decide, by decide, by decide, by decide⟩


/-- A run whose first `n` attempts time out proceeds from attempt `0`
to attempt `n`, as long as the budget is not exhausted. -/
theorem generateFrom_skip_timeouts (backend : Nat → BackendResult)
    (retry_count : Nat) :
    ∀ n, n ≤ retry_count → (∀ k, k < n → backend k = .timeout) →
      generateFrom backend retry_count 0 = generateFrom backend retry_count n := by
  intro n
  induction n with
  | zero => intro _ _; rfl
  | succ m ih =>
    intro hle ht
    have hm : generateFrom backend retry_count 0 = generateFrom backend retry_count m :=
      ih (Nat.le_of_succ_le hle) (fun k hk => ht k (Nat.lt_succ_of_lt hk))
    rw [hm]
    rw [generateFrom, ht m (Nat.lt_succ_self m)]
    simp only [if_pos (Nat.lt_of_succ_le hle)]

/-- With every attempt timing out, the loop walks the budget down and
raises the connection error reporting `retry_count + 1` attempts. -/
theorem generateFrom_all_timeout (retry_count : Nat) :
    ∀ n, n ≤ retry_count →
      generateFrom (fun _ => .timeout) retry_count n =
        (Except.error (GenError.connectionError (retry_count + 1)), retry_count + 1) := by
  intro n h
  obtain ⟨d, hd⟩ : ∃ d, retry_count - n = d := ⟨_, rfl⟩
  induction d generalizing n with
  | zero =>
    have : n = retry_count := by omega
    subst this
    rw [generateFrom]
    simp
  | succ d ih =>
    rw [generateFrom]
    have hlt : n < retry_count := by omega
    simp only [if_pos hlt]
    exact ih (n + 1) hlt (by omega)

/-- C3: the retry loop of `generate` follows the claimed state machine:
(1) a backend that always times out yields the connection error after
exactly `retryBudget + 1` attempts, for every budget; (2) after any
timeout prefix within budget, an HTTP status error at attempt `n`
terminates immediately with the generation error after `n + 1`
attempts; (3) likewise a structurally successful response with an empty
text payload; (4) a timeout at attempt `n < budget` transitions to
attempt `n + 1`; (5) a backend that times out once then succeeds, with
budget 1, returns the success value using exactly 2 attempts. -/
theorem C3_generate_state_machine :
    (∀ rc : Nat, generate (fun _ => .timeout) rc =
      (Except.error (GenError.connectionError (rc + 1)), rc + 1)) ∧
    (∀ (backend : Nat → BackendResult) (rc n : Nat), n ≤ rc →
      (∀ k, k < n → backend k = .timeout) → ∀ code, backend n = .statusError code →
      generate backend rc = (Except.error (GenError.generationError (some code)), n + 1)) ∧
    (∀ (backend : Nat → BackendResult) (rc n : Nat), n ≤ rc →
      (∀ k, k < n → backend k = .timeout) → backend n = .success "" →
      generate backend rc = (Except.error (GenError.generationError none), n + 1)) ∧
    (∀ (backend : Nat → BackendResult) (rc n : Nat), n < rc → backend n = .timeout →
      generateFrom backend rc n = generateFrom backend rc (n + 1)) ∧
    generate (fun k => if k = 0 then .timeout else .success "ok") 1 =
      (Except.ok "ok", 2) := by
  refine ⟨?_, ?_, ?_, ?_, ?_⟩
  · intro rc
    exact generateFrom_all_timeout rc 0 (Nat.zero_le rc)
  · intro backend rc n hle ht code hs
    rw [generate, generateFrom_skip_timeouts backend rc n hle ht]
    rw [generateFrom, hs]
  · intro backend rc n hle ht hs
    rw [generate, generateFrom_skip_timeouts backend rc n hle ht]
    rw [generateFrom, hs]
    rfl
  · intro backend rc n hlt ht
    rw [generateFrom, ht]
    simp only [if_pos hlt]
  · rw [generate, generateFrom]
    simp only [if_pos rfl, Nat.zero_lt_one, if_pos]
    rw [generateFrom]
    rfl

/-- C3 witness: the hypothesised parts of the state machine at concrete
backends — a status error after one timeout with budget 2, an empty
payload at attempt 0, and a timeout step. -/
theorem C3_generate_state_machine_witness :
    generate (fun k => if k = 0 then .timeout else .statusError 500) 2 =
      (Except.error (GenError.generationError (some 500)), 2) ∧
    generate (fun _ => .success "") 3 =
      (Except.error (GenError.generationError none), 1) ∧
    generateFrom (fun _ => .timeout) 1 0 = generateFrom (fun _ => .timeout) 1 1 := by
  refine ⟨?_, ?_, ?_⟩
  · exact C3_generate_state_machine.2.1 _ 2 1 (by omega)
      (fun k hk => by interval_cases k; rfl) 500 rfl
  · exact C3_generate_state_machine.2.2.1 _ 3 0 (by omega)
      (fun k hk => by omega) rfl
  · exact C3_generate_state_machine.2.2.2.1 _ 1 0 (by omega) rfl

/-- C10: for every loaded knowledge base, `get_context_for_prompt` with
a `maxEntries` cap of `0` returns the full formatted context, identical
to the uncapped call (Python's falsy `0` skips the slice); the cap only
truncates for `maxEntries ≥ 1`, where it formats exactly the first
`maxEntries` entries. -/
theorem C10_zero_cap_full_context (pairs : List QAPair) :
    get_context_for_prompt pairs (some 0) = get_context_for_prompt pairs none ∧
    get_context_for_prompt pairs none =
      pyStrip (joinNl (contextParts pairs)) ∧
    ∀ k : Nat, get_context_for_prompt pairs (some (k + 1)) =
      get_context_for_prompt (pairs.take (k + 1)) none :=
  ⟨rfl, rfl, fun _ => rfl⟩

/-- C9 (counterexample): requesting context with method `"similarity"`
does not fail with the invalid-method error the claim names: it hits
the `NotImplementedError` placeholder instead, a distinct error. -/
theorem C9_counterexample :
    get_relevant_context [⟨"hi", "there", 0⟩] "q" "similarity" =
      Except.error CtxError.notImplemented ∧
    (Except.error CtxError.notImplemented ≠
      (Except.error (CtxError.invalidMethod "similarity") :
        Except CtxError String)) := by
  refine ⟨rfl, fun h => ?_⟩
  simp at h

/-- C9 (amended): for every selection method other than `"all"`,
`"keyword"` and `"similarity"`, requesting context fails with the
invalid-method error (carrying the method string); `"similarity"`
instead fails with the not-implemented error.  Both are raised before
any state is touched (the operation is a pure read). -/
theorem C9_unknown_method_invalid (pairs : List QAPair) (query method : String)
    (h1 : method ≠ "all") (h2 : method ≠ "keyword") (h3 : method ≠ "similarity") :
    get_relevant_context pairs query method =
      Except.error (CtxError.invalidMethod method) ∧
    get_relevant_context pairs query "similarity" =
      Except.error CtxError.notImplemented := by
  refine ⟨?_, rfl⟩
  simp only [get_relevant_context, if_neg h1, if_neg h2, if_neg h3]

/-- C9 witness: the amended theorem at a concrete unknown method. -/
theorem C9_unknown_method_invalid_witness :
    get_relevant_context [] "q" "semantic" =
      Except.error (CtxError.invalidMethod "semantic") ∧
    get_relevant_context [] "q" "similarity" =
      Except.error CtxError.notImplemented :=
  C9_unknown_method_invalid [] "q" "semantic" (by decide) (by decide) (by decide)

/-- C1 (code evaluated at the failing input): `reload` clears the
stored pairs before loading, so any failed reload leaves the store
empty; concretely, a store holding the entry parsed from
`"Q: hi\nA: there\n"` that reloads against a missing source ends with
no entries — the previously loaded knowledge base is not preserved,
contradicting the claim. -/
theorem C1_reload_failure_clears_state :
    (∀ (st : KBState) (source : Option String),
      ((reload st source).2).isSome = true → (reload st source).1.qa_pairs = []) ∧
    (load_knowledge_base ⟨[]⟩ (some "Q: hi\nA: there\n")).1.qa_pairs =
      [⟨"hi", "there", 0⟩] ∧
    reload (load_knowledge_base ⟨[]⟩ (some "Q: hi\nA: there\n")).1 none =
      (⟨[]⟩, some KBError.sourceMissing) ∧
    ([] : List QAPair) ≠ [⟨"hi", "there", 0⟩] := by
  refine ⟨?_, by decide, by decide, by decide⟩
  intro st source h
  match source with
  | none => rfl
  | some content =>
    simp only [reload, load_knowledge_base] at h ⊢
    by_cases hp : (parse_qa_pairs content).isEmpty
    · simpa [hp] using List.isEmpty_iff.mp hp
    · simp [hp] at h

/-- C1 witness: the general clearing law at a concrete loaded store and
a concrete failing reload. -/
theorem C1_reload_failure_clears_state_witness :
    (reload ⟨[⟨"hi", "there", 0⟩]⟩ none).1.qa_pairs = [] :=
  C1_reload_failure_clears_state.1 ⟨[⟨"hi", "there", 0⟩]⟩ none (by decide)

/-! Lemmas for the round-trip theorem (C8): first, the normalization
`cleanText` is the identity on safe texts. -/

theorem safeChar_not_ws {c : Char} (h : safeChar c = true) (hc : c ≠ ' ') :
    isPyWs c = false := by
  rcases Bool.or_eq_true _ _ ▸ h with h' | h'
  · exact absurd (by simpa using h') hc
  · have h1 := (Bool.and_eq_true _ _ ▸ (Bool.and_eq_true _ _ ▸ h').1).1
    simpa using h1

theorem safeChar_ws_space {c : Char} (h : safeChar c = true)
    (hws : isPyWs c = true) : c = ' ' := by
  by_cases hc : c = ' '
  · exact hc
  · rw [safeChar_not_ws h hc] at hws
    cases hws

theorem okSpacing_tail {c : Char} {tl : List Char}
    (h : okSpacing (c :: tl) = true) : okSpacing tl = true := by
  cases tl with
  | nil => rfl
  | cons d tl' => exact (Bool.and_eq_true _ _ ▸ h).2

theorem okSpacing_suffix : ∀ (xs ys : List Char),
    okSpacing (xs ++ ys) = true → okSpacing ys = true := by
  intro xs
  induction xs with
  | nil => intro ys h; exact h
  | cons c xs' ih => intro ys h; exact ih ys (okSpacing_tail h)

theorem okSpacing_cons_space {tl : List Char}
    (h : okSpacing (' ' :: tl) = true) :
    ∃ d tl', tl = d :: tl' ∧ d ≠ ' ' := by
  cases tl with
  | nil => simp [okSpacing] at h
  | cons d tl' =>
    refine ⟨d, tl', rfl, ?_⟩
    have := (Bool.and_eq_true _ _ ▸ h).1
    by_cases hd : d = ' '
    · simp [hd] at this
    · exact hd

theorem okSpacing_getLast : ∀ {l : List Char}, okSpacing l = true →
    l.getLast? ≠ some ' ' := by
  intro l
  induction l with
  | nil => intro _ h; cases h
  | cons c tl ih =>
    intro h
    cases tl with
    | nil =>
      intro hc
      have : c = ' ' := by simpa using hc
      subst this
      simp [okSpacing] at h
    | cons d tl' =>
      rw [List.getLast?_cons_cons]
      exact ih (okSpacing_tail h)

theorem containsSub_of_tail {n c : _} {tl : List Char}
    (h : containsSub n tl = true) : containsSub n (c :: tl) = true := by
  simp [containsSub, h]

theorem containsSub_of_prefix {n l : List Char}
    (h : List.isPrefixOf n l = true) : containsSub n l = true := by
  cases l with
  | nil =>
    have : n = [] := List.prefix_nil.mp (List.isPrefixOf_iff_prefix.mp h)
    simp [this, containsSub]
  | cons c tl => simp [containsSub, h]

theorem pySplitGo_nil (fuel : Nat) : pySplitGo fuel [] = [] := by
  cases fuel <;> rfl

theorem pySplitGo_cons_space (fuel : Nat) (l : List Char) :
    pySplitGo (fuel + 1) (' ' :: l) = pySplitGo (fuel + 1) l := by
  have hws : isPyWs ' ' = true := rfl
  simp only [pySplitGo, List.dropWhile_cons, hws, if_true]

theorem dropWhile_head_false {p : Char → Bool} :
    ∀ {l : List Char} {b : Char} {l' : List Char},
      l.dropWhile p = b :: l' → p b = false := by
  intro l
  induction l with
  | nil => intro b l' h; cases h
  | cons c tl ih =>
    intro b l' h
    rw [List.dropWhile_cons] at h
    by_cases hc : p c = true
    · rw [if_pos hc] at h
      exact ih h
    · rw [if_neg hc] at h
      cases h
      exact Bool.eq_false_iff.mpr hc

theorem joinSpace_pySplitGo : ∀ (fuel : Nat) (l : List Char),
    l.length ≤ fuel → l ≠ [] → (∀ c ∈ l, safeChar c = true) →
    (∀ c, l.head? = some c → c ≠ ' ') → okSpacing l = true →
    joinSpace (pySplitGo fuel l) = l := by
  intro fuel
  induction fuel with
  | zero =>
    intro l hlen hne _ _ _
    cases l with
    | nil => exact absurd rfl hne
    | cons c tl => simp at hlen
  | succ fuel ih =>
    intro l hlen hne hchars hhead hok
    obtain ⟨c, tl, rfl⟩ : ∃ c tl, l = c :: tl := by
      cases l with
      | nil => exact absurd rfl hne
      | cons c tl => exact ⟨c, tl, rfl⟩
    have hc : c ≠ ' ' := hhead c rfl
    have hcws : isPyWs c = false :=
      safeChar_not_ws (hchars c (List.mem_cons_self c tl)) hc
    have hdrop : (c :: tl).dropWhile isPyWs = c :: tl := by
      rw [List.dropWhile_cons, hcws]
      simp
    set w := (c :: tl).takeWhile (fun x => !isPyWs x) with hw
    set r := (c :: tl).dropWhile (fun x => !isPyWs x) with hr
    have hsplit : w ++ r = c :: tl := by
      rw [hw, hr]
      exact List.takeWhile_append_dropWhile _ _
    have hwne : w ≠ [] := by
      rw [hw, List.takeWhile_cons, hcws]
      simp
    have hstep : pySplitGo (fuel + 1) (c :: tl) = w :: pySplitGo fuel r := by
      rw [hw, hr]
      simp only [pySplitGo, hdrop]
    cases hrc : r with
    | nil =>
      rw [hstep, hrc, pySplitGo_nil]
      show joinSpace [w] = c :: tl
      rw [joinSpace, ← hsplit, hrc, List.append_nil]
    | cons r0 r1 =>
      have hr0ws : isPyWs r0 = true := by
        have := dropWhile_head_false (p := fun x => !isPyWs x) (hr ▸ hrc : (c :: tl).dropWhile (fun x => !isPyWs x) = r0 :: r1)
        simpa using this
      have hr0mem : r0 ∈ c :: tl := by
        rw [← hsplit, hrc]
        exact List.mem_append_right w (List.mem_cons_self r0 r1)
      have hr0 : r0 = ' ' := safeChar_ws_space (hchars r0 hr0mem) hr0ws
      have hokr : okSpacing r = true := by
        rw [← hsplit] at hok
        exact okSpacing_suffix w r hok
      obtain ⟨d, r2, hr1, hd⟩ := okSpacing_cons_space (by rw [hrc, hr0] at hokr; exact hokr)
      have hr2mem : ∀ x ∈ d :: r2, x ∈ c :: tl := by
        intro x hx
        rw [← hsplit, hrc, hr1]
        exact List.mem_append_right w (List.mem_cons_of_mem r0 hx)
      have hlenr : (d :: r2).length ≤ fuel := by
        have h1 : (c :: tl).length = w.length + r.length := by
          rw [← hsplit, List.length_append]
        have h2 : r.length = 2 + r2.length := by
          rw [hrc, hr1]
          simp only [List.length_cons]
          omega
        have h3 : w.length ≠ 0 := fun h0 => hwne (List.length_eq_zero.mp h0)
        have h4 : (c :: tl).length ≤ fuel + 1 := hlen
        simp only [List.length_cons] at h4 ⊢
        omega
      obtain ⟨f, hf⟩ : ∃ f, fuel = f + 1 := by
        refine ⟨fuel - 1, ?_⟩
        have : 1 ≤ (d :: r2).length := by simp
        omega
      have hskip : pySplitGo fuel r = pySplitGo fuel (d :: r2) := by
        rw [hrc, hr1, hr0, hf]
        exact pySplitGo_cons_space f (d :: r2)
      have hokdr : okSpacing (d :: r2) = true := by
        have : okSpacing (r0 :: d :: r2) = true := by
          rw [hrc, hr1] at hokr
          exact hokr
        exact okSpacing_tail this
      have hih : joinSpace (pySplitGo fuel (d :: r2)) = d :: r2 := by
        refine ih (d :: r2) hlenr (by simp) (fun x hx => hchars x (hr2mem x hx))
          ?_ hokdr
        intro x hx
        rw [List.head?_cons, Option.some.injEq] at hx
        subst hx
        exact hd
      have hdws : isPyWs d = false :=
        safeChar_not_ws (hchars d (hr2mem d (List.mem_cons_self d r2))) hd
      have hne2 : pySplitGo fuel (d :: r2) ≠ [] := by
        rw [hf, pySplitGo, List.dropWhile_cons, hdws]
        simp
      obtain ⟨y, ys, hys⟩ : ∃ y ys, pySplitGo fuel (d :: r2) = y :: ys := by
        cases hcase : pySplitGo fuel (d :: r2) with
        | nil => exact absurd hcase hne2
        | cons y ys => exact ⟨y, ys, rfl⟩
      have hjy : joinSpace (y :: ys) = d :: r2 := by
        rw [← hys]
        exact hih
      rw [hstep, hskip, hys]
      show joinSpace (w :: y :: ys) = c :: tl
      rw [joinSpace, hjy, ← hsplit, hrc, hr1, hr0]
      exact List.cons_ne_nil y ys

theorem mem_of_getLast?_eq {l : List Char} {c : Char}
    (h : l.getLast? = some c) : c ∈ l := by
  have h' : l.reverse.head? = some c := by rwa [List.head?_reverse]
  cases hr : l.reverse with
  | nil => rw [hr] at h'; cases h'
  | cons d tl =>
    rw [hr, List.head?_cons, Option.some.injEq] at h'
    rw [← h']
    have hd : d ∈ l.reverse := by
      rw [hr]
      exact List.mem_cons_self d tl
    exact List.mem_reverse.mp hd

theorem safeChar_no_star {c : Char} (h : safeChar c = true) : c ≠ '*' := by
  rcases Bool.or_eq_true _ _ ▸ h with h' | h'
  · have : c = ' ' := by simpa using h'
    subst this
    decide
  · have := (Bool.and_eq_true _ _ ▸ (Bool.and_eq_true _ _ ▸ h').1).2
    simpa using this

theorem safeChar_no_tick {c : Char} (h : safeChar c = true) : c ≠ '`' := by
  rcases Bool.or_eq_true _ _ ▸ h with h' | h'
  · have : c = ' ' := by simpa using h'
    subst this
    decide
  · have := (Bool.and_eq_true _ _ ▸ h').2
    simpa using this

theorem starSubGo_id : ∀ (fuel : Nat) (l : List Char),
    (∀ c ∈ l, c ≠ '*') → starSubGo fuel l = l := by
  intro fuel
  induction fuel with
  | zero => intro l _; rfl
  | succ f ih =>
    intro l h
    cases l with
    | nil => rfl
    | cons c tl =>
      have hc : c ≠ '*' := h c (List.mem_cons_self c tl)
      have hm : starMatchAt (c :: tl) = none := by
        rw [starMatchAt.eq_def]
        split
        · next heq => injection heq with h1 _; exact absurd h1 hc
        · next heq => injection heq with h1 _; exact absurd h1 hc
        · rfl
      conv_lhs => rw [starSubGo]
      rw [hm]
      show c :: starSubGo f tl = c :: tl
      rw [ih tl (fun x hx => h x (List.mem_cons_of_mem c hx))]

theorem tickSubGo_id : ∀ (fuel : Nat) (l : List Char),
    (∀ c ∈ l, c ≠ '`') → tickSubGo fuel l = l := by
  intro fuel
  induction fuel with
  | zero => intro l _; rfl
  | succ f ih =>
    intro l h
    cases l with
    | nil => rfl
    | cons c tl =>
      have hc : c ≠ '`' := h c (List.mem_cons_self c tl)
      have hm : tickMatchAt (c :: tl) = none := by
        rw [tickMatchAt.eq_def]
        split
        · next heq => injection heq with h1 _; exact absurd h1 hc
        · rfl
      conv_lhs => rw [tickSubGo]
      rw [hm]
      show c :: tickSubGo f tl = c :: tl
      rw [ih tl (fun x hx => h x (List.mem_cons_of_mem c hx))]

theorem dropWhile_isPyWs_id {l : List Char}
    (h : ∀ c, l.head? = some c → isPyWs c = false) :
    l.dropWhile isPyWs = l := by
  cases l with
  | nil => rfl
  | cons c tl =>
    rw [List.dropWhile_cons, h c rfl]
    simp

theorem stripL_id {l : List Char}
    (hh : ∀ c, l.head? = some c → isPyWs c = false)
    (hl : ∀ c, l.getLast? = some c → isPyWs c = false) :
    stripL l = l := by
  unfold stripL
  rw [dropWhile_isPyWs_id hh]
  have hrev : l.reverse.dropWhile isPyWs = l.reverse := by
    refine dropWhile_isPyWs_id ?_
    intro c hc
    rw [List.head?_reverse] at hc
    exact hl c hc
  rw [hrev, List.reverse_reverse]

/-- Unpack the conjuncts of `safeText`. -/
theorem safeText_spec {l : List Char} (h : safeText l = true) :
    l ≠ [] ∧ (∀ c ∈ l, safeChar c = true) ∧
    (∀ c, l.head? = some c → c ≠ ' ') ∧ okSpacing l = true ∧
    containsSub ['Q', ':'] l = false ∧ containsSub ['A', ':'] l = false := by
  unfold safeText at h
  have h1 := (Bool.and_eq_true _ _ ▸ h).1
  have hA := (Bool.and_eq_true _ _ ▸ h).2
  have h2 := (Bool.and_eq_true _ _ ▸ h1).1
  have h3 := (Bool.and_eq_true _ _ ▸ h2).1
  have h4 := (Bool.and_eq_true _ _ ▸ h3).1
  have h5 := (Bool.and_eq_true _ _ ▸ h4).1
  have h6 := (Bool.and_eq_true _ _ ▸ h4).2
  have h7 := (Bool.and_eq_true _ _ ▸ h3).2
  have h8 := (Bool.and_eq_true _ _ ▸ h2).2
  have h9 := (Bool.and_eq_true _ _ ▸ h1).2
  refine ⟨?_, List.all_eq_true.mp h6, ?_, h8, ?_, ?_⟩
  · exact List.isEmpty_eq_false.mp (by simpa using h5)
  · intro c hc
    rw [hc] at h7
    intro hcs
    subst hcs
    simp at h7
  · simpa using h9
  · simpa using hA

/-- `cleanText` is the identity on safe texts. -/
theorem cleanText_id {l : List Char} (h : safeText l = true) :
    cleanText l = l := by
  obtain ⟨hne, hchars, hhead, hok, _, _⟩ := safeText_spec h
  have h1 : joinSpace (pySplit l) = l :=
    joinSpace_pySplitGo l.length l (Nat.le_refl _) hne hchars hhead hok
  have hhws : ∀ c, l.head? = some c → isPyWs c = false := by
    intro c hc
    have hcm : c ∈ l := by
      cases l with
      | nil => cases hc
      | cons d tl =>
        rw [List.head?_cons, Option.some.injEq] at hc
        rw [← hc]
        exact List.mem_cons_self d tl
    exact safeChar_not_ws (hchars c hcm) (hhead c hc)
  have hlws : ∀ c, l.getLast? = some c → isPyWs c = false := by
    intro c hc
    have hcm : c ∈ l := mem_of_getLast?_eq hc
    refine safeChar_not_ws (hchars c hcm) ?_
    intro hcs
    subst hcs
    exact okSpacing_getLast hok hc
  unfold cleanText
  unfold pySplit at h1
  unfold pySplit
  rw [h1]
  unfold starSub
  rw [starSubGo_id l.length l (fun c hc => safeChar_no_star (hchars c hc))]
  unfold tickSub
  rw [tickSubGo_id l.length l (fun c hc => safeChar_no_tick (hchars c hc))]
  exact stripL_id hhws hlws

theorem safeChar_ne_newline {c : Char} (h : safeChar c = true) : c ≠ '\n' := by
  intro hc
  subst hc
  exact absurd h (by decide)

theorem containsSub_tail_false {n : List Char} {c : Char} {tl : List Char}
    (h : containsSub n (c :: tl) = false) : containsSub n tl = false := by
  by_contra hne
  rw [containsSub_of_tail (Bool.of_not_eq_false hne)] at h
  cases h

/-- Dissect a safe scan suffix: either it is headed by a plain
character, or by a single space followed by a plain character. -/
theorem scan_core (s : List Char) (hne : s ≠ [])
    (hchars : ∀ c ∈ s, safeChar c = true) (hok : okSpacing s = true)
    {marker : List Char} (hm : containsSub marker s = false) :
    ∃ (d : Char) (v : List Char),
      (∀ tail, dropWs (s ++ tail) = d :: (v ++ tail)) ∧
      isPyWs d = false ∧ containsSub marker (d :: v) = false := by
  obtain ⟨c, s', rfl⟩ : ∃ c s', s = c :: s' := by
    cases s with
    | nil => exact absurd rfl hne
    | cons c s' => exact ⟨c, s', rfl⟩
  by_cases hc : c = ' '
  · subst hc
    obtain ⟨d, s'', hs', hd⟩ := okSpacing_cons_space hok
    subst hs'
    have hdws : isPyWs d = false :=
      safeChar_not_ws (hchars d (by simp)) hd
    refine ⟨d, s'', ?_, hdws, containsSub_tail_false hm⟩
    intro tail
    have h1 : isPyWs ' ' = true := by decide
    simp [dropWs, List.cons_append, List.dropWhile_cons, h1, hdws]
  · have hcws : isPyWs c = false :=
      safeChar_not_ws (hchars c (List.mem_cons_self c s')) hc
    refine ⟨c, s', ?_, hcws, hm⟩
    intro tail
    simp [dropWs, List.cons_append, List.dropWhile_cons, hcws]

/-- Inside a safe text followed by a good tail, the lookahead
`(?=\s*Q:|$)` never fires. -/
theorem lookaheadOk_false (s tail : List Char) (hne : s ≠ [])
    (hchars : ∀ c ∈ s, safeChar c = true) (hok : okSpacing s = true)
    (hq : containsSub ['Q', ':'] s = false) (ht : GoodTail tail) :
    lookaheadOk (s ++ tail) = false := by
  obtain ⟨d, v, hdw, hdws, hdv⟩ := scan_core s hne hchars hok hq
  obtain ⟨c, s', rfl⟩ : ∃ c s', s = c :: s' := by
    cases s with
    | nil => exact absurd rfl hne
    | cons c s' => exact ⟨c, s', rfl⟩
  have hcnl : c ≠ '\n' :=
    safeChar_ne_newline (hchars c (List.mem_cons_self c s'))
  unfold lookaheadOk
  rw [hdw tail]
  have hm1 : (match d :: (v ++ tail) with
      | 'Q' :: ':' :: _ => true
      | _ => false) = false := by
    split
    · next rest heq =>
      injection heq with h1 h2
      subst h1
      cases v with
      | nil =>
        rw [List.nil_append] at h2
        rcases ht with rfl | ⟨t, rfl⟩
        · cases h2
        · injection h2 with h3 _
          cases h3
      | cons e v' =>
        rw [List.cons_append] at h2
        injection h2 with h3 _
        subst h3
        have hpre : containsSub ['Q', ':'] ('Q' :: ':' :: v') = true :=
          containsSub_of_prefix (List.isPrefixOf_iff_prefix.mpr ⟨v', rfl⟩)
        rw [hpre] at hdv
        cases hdv
    · rfl
  rw [hm1]
  have hm2 : (match (c :: s') ++ tail with
      | [] => true
      | '\n' :: _ => true
      | _ => false) = false := by
    rw [List.cons_append]
    split
    · next heq => cases heq
    · next heq =>
      injection heq with h1 _
      exact absurd h1 hcnl
    · rfl
  rw [hm2]
  rfl

/-- The lazy answer scan consumes exactly the safe text and stops at
the good tail. -/
theorem matchG2Go_scan : ∀ (s acc tail : List Char),
    (∀ c ∈ s, safeChar c = true) → okSpacing s = true →
    containsSub ['Q', ':'] s = false → GoodTail tail →
    matchG2Go acc (s ++ tail) = some (acc.reverse ++ s, tail) := by
  intro s
  induction s with
  | nil =>
    intro acc tail _ _ _ ht
    rw [List.nil_append, List.append_nil]
    rcases ht with rfl | ⟨t, rfl⟩
    · rfl
    · show matchG2Go acc ('\n' :: t) = some (acc.reverse, '\n' :: t)
      rw [matchG2Go]
      have : lookaheadOk ('\n' :: t) = true := by
        unfold lookaheadOk
        apply Bool.or_eq_true_iff.mpr
        right
        rfl
      rw [this, if_pos rfl]
  | cons c s' ih =>
    intro acc tail hchars hok hq ht
    have hla : lookaheadOk ((c :: s') ++ tail) = false :=
      lookaheadOk_false (c :: s') tail (List.cons_ne_nil c s') hchars hok hq ht
    rw [List.cons_append] at hla ⊢
    rw [matchG2Go, hla, if_neg (by simp)]
    rw [ih (c :: acc) tail (fun x hx => hchars x (List.mem_cons_of_mem c hx))
      (okSpacing_tail hok) (containsSub_tail_false hq) ht]
    simp

/-- The answer group consumes exactly a safe answer text. -/
theorem matchG2_safe (a tail : List Char) (ha : safeText a = true)
    (ht : GoodTail tail) : matchG2 (a ++ tail) = some (a, tail) := by
  obtain ⟨hne, hchars, _, hok, hqm, _⟩ := safeText_spec ha
  obtain ⟨c, a', rfl⟩ : ∃ c a', a = c :: a' := by
    cases a with
    | nil => exact absurd rfl hne
    | cons c a' => exact ⟨c, a', rfl⟩
  rw [List.cons_append, matchG2,
    matchG2Go_scan a' [c] tail (fun x hx => hchars x (List.mem_cons_of_mem c hx))
      (okSpacing_tail hok) (containsSub_tail_false hqm) ht]
  simp

theorem matchAfterA_nonws {x : Char} {X : List Char} (hx : isPyWs x = false) :
    matchAfterA (x :: X) = matchG2 (x :: X) := by
  unfold matchAfterA
  simp [List.dropWhile_cons, hx]

theorem matchAfterA_space_nonws {x : Char} {X : List Char}
    (hx : isPyWs x = false) :
    matchAfterA (' ' :: x :: X) = matchG2 (x :: X) := by
  unfold matchAfterA
  have h1 : isPyWs ' ' = true := by decide
  simp [List.dropWhile_cons, h1, hx]

/-- At the question/answer boundary of a formatted block, the rest of
the pattern matches and captures exactly the answer text. -/
theorem tryAfterG1_accept (a tail : List Char) (ha : safeText a = true)
    (ht : GoodTail tail) :
    tryAfterG1 ('\n' :: 'A' :: ':' :: ' ' :: (a ++ tail)) = some (a, tail) := by
  obtain ⟨hne, hchars, hhead, hok, _, _⟩ := safeText_spec ha
  obtain ⟨c, a', rfl⟩ : ∃ c a', a = c :: a' := by
    cases a with
    | nil => exact absurd rfl hne
    | cons c a' => exact ⟨c, a', rfl⟩
  have hcws : isPyWs c = false :=
    safeChar_not_ws (hchars c (List.mem_cons_self c a')) (hhead c rfl)
  have hdw : dropWs ('\n' :: 'A' :: ':' :: ' ' :: ((c :: a') ++ tail)) =
      'A' :: ':' :: (' ' :: ((c :: a') ++ tail)) := by
    have h1 : isPyWs '\n' = true := by decide
    have h2 : isPyWs 'A' = false := by decide
    simp [dropWs, List.dropWhile_cons, h1, h2]
  unfold tryAfterG1
  rw [hdw]
  show matchAfterA (' ' :: ((c :: a') ++ tail)) = some (c :: a', tail)
  rw [List.cons_append, matchAfterA_space_nonws hcws, ← List.cons_append]
  exact matchG2_safe (c :: a') tail ha ht

/-- Inside a safe question text, the rest of the pattern never starts:
no `A:` marker is reachable through whitespace. -/
theorem tryAfterG1_reject (s t : List Char) (hne : s ≠ [])
    (hchars : ∀ c ∈ s, safeChar c = true) (hok : okSpacing s = true)
    (hA : containsSub ['A', ':'] s = false) :
    tryAfterG1 (s ++ ('\n' :: t)) = none := by
  obtain ⟨d, v, hdw, hdws, hdv⟩ := scan_core s hne hchars hok hA
  unfold tryAfterG1
  rw [hdw ('\n' :: t)]
  split
  · next tl heq =>
    injection heq with h1 h2
    subst h1
    cases v with
    | nil =>
      rw [List.nil_append] at h2
      injection h2 with h3 _
      cases h3
    | cons e v' =>
      rw [List.cons_append] at h2
      injection h2 with h3 _
      subst h3
      have hpre : containsSub ['A', ':'] ('A' :: ':' :: v') = true :=
        containsSub_of_prefix (List.isPrefixOf_iff_prefix.mpr ⟨v', rfl⟩)
      rw [hpre] at hdv
      cases hdv
  · rfl

/-- The lazy question scan consumes exactly the safe question text and
hands over at the boundary. -/
theorem matchG1Go_scan (a tail : List Char) (ha : safeText a = true)
    (ht : GoodTail tail) :
    ∀ (s acc : List Char), (∀ c ∈ s, safeChar c = true) →
      okSpacing s = true → containsSub ['A', ':'] s = false →
      matchG1Go acc (s ++ ('\n' :: 'A' :: ':' :: ' ' :: (a ++ tail))) =
        some (acc.reverse ++ s, a, tail) := by
  intro s
  induction s with
  | nil =>
    intro acc _ _ _
    rw [List.nil_append, List.append_nil, matchG1Go,
      tryAfterG1_accept a tail ha ht]
  | cons c s' ih =>
    intro acc hchars hok hA
    have hrej : tryAfterG1 (c :: (s' ++ ('\n' :: 'A' :: ':' :: ' ' :: (a ++ tail)))) =
        none := by
      rw [← List.cons_append]
      exact tryAfterG1_reject (c :: s') _ (List.cons_ne_nil c s') hchars hok hA
    rw [List.cons_append, matchG1Go, hrej,
      ih (c :: acc) (fun x hx => hchars x (List.mem_cons_of_mem c hx))
        (okSpacing_tail hok) (containsSub_tail_false hA)]
    simp

/-- The whole pair pattern, matched at a formatted block. -/
theorem matchAt_fmt (q a tail : List Char) (hq : safeText q = true)
    (ha : safeText a = true) (ht : GoodTail tail) :
    matchAt ('Q' :: ':' :: ' ' :: (q ++ '\n' :: 'A' :: ':' :: ' ' :: (a ++ tail))) =
      some (q, a, tail) := by
  obtain ⟨hneq, hcharsq, hheadq, hokq, _, hAq⟩ := safeText_spec hq
  obtain ⟨c, q', rfl⟩ : ∃ c q', q = c :: q' := by
    cases q with
    | nil => exact absurd rfl hneq
    | cons c q' => exact ⟨c, q', rfl⟩
  have hcws : isPyWs c = false :=
    safeChar_not_ws (hcharsq c (List.mem_cons_self c q')) (hheadq c rfl)
  show matchQTail (' ' :: ((c :: q') ++ '\n' :: 'A' :: ':' :: ' ' :: (a ++ tail))) =
    some (c :: q', a, tail)
  unfold matchQTail
  have htw : (' ' :: ((c :: q') ++ '\n' :: 'A' :: ':' :: ' ' :: (a ++ tail))).takeWhile
      isPyWs = [' '] := by
    have h1 : isPyWs ' ' = true := by decide
    simp [List.takeWhile_cons, h1, hcws]
  rw [htw]
  show matchW1 _ (0 + 1) = _
  rw [matchW1]
  show (match matchG1 ((c :: q') ++ '\n' :: 'A' :: ':' :: ' ' :: (a ++ tail)) with
    | some r => some r
    | none => matchW1 _ 0) = some (c :: q', a, tail)
  rw [List.cons_append, matchG1,
    matchG1Go_scan a tail ha ht q' [c]
      (fun x hx => hcharsq x (List.mem_cons_of_mem c hx))
      (okSpacing_tail hokq) (containsSub_tail_false hAq)]
  simp

theorem findallGo_nil (fuel : Nat) : findallGo fuel [] = [] := by
  cases fuel <;> rfl

theorem matchAt_newline (X : List Char) : matchAt ('\n' :: X) = none := rfl

theorem qaBlock_length (qa : QAPair) :
    (qaBlock qa).length =
      qa.question.data.length + qa.answer.data.length + 7 := by
  simp [qaBlock]
  omega

theorem qaBlock_shape (qa : QAPair) (X : List Char) :
    qaBlock qa ++ X =
      'Q' :: ':' :: ' ' :: (qa.question.data ++
        '\n' :: 'A' :: ':' :: ' ' :: (qa.answer.data ++ X)) := by
  simp [qaBlock]

/-- `findall` over a formatted context recovers exactly the raw
question/answer texts, in order. -/
theorem findallGo_fmt : ∀ (pairs : List QAPair) (fuel : Nat), SafePairs pairs →
    (fmtData pairs).length ≤ fuel →
    findallGo fuel (fmtData pairs) =
      pairs.map (fun qa => (qa.question.data, qa.answer.data)) := by
  intro pairs
  induction pairs with
  | nil => intro fuel _ _; exact findallGo_nil fuel
  | cons qa tl ih =>
    intro fuel hsafe hlen
    have hq := (hsafe qa (List.mem_cons_self qa tl)).1
    have ha := (hsafe qa (List.mem_cons_self qa tl)).2
    have hsafetl : SafePairs tl := fun p hp => hsafe p (List.mem_cons_of_mem qa hp)
    cases tl with
    | nil =>
      have hlen1 : 1 ≤ (fmtData [qa]).length := by
        show 1 ≤ (qaBlock qa).length
        rw [qaBlock_length]
        omega
      obtain ⟨f, rfl⟩ : ∃ f, fuel = f + 1 := ⟨fuel - 1, by omega⟩
      have hshape : fmtData [qa] = 'Q' :: ':' :: ' ' :: (qa.question.data ++
          '\n' :: 'A' :: ':' :: ' ' :: (qa.answer.data ++ [])) := by
        rw [show fmtData [qa] = qaBlock qa from rfl, ← qaBlock_shape,
          List.append_nil]
      rw [hshape, findallGo, matchAt_fmt _ _ _ hq ha (Or.inl rfl)]
      show (qa.question.data, qa.answer.data) :: findallGo f [] =
        List.map (fun qa => (qa.question.data, qa.answer.data)) [qa]
      rw [findallGo_nil]
      rfl
    | cons t0 tl' =>
      have hshape : fmtData (qa :: t0 :: tl') =
          'Q' :: ':' :: ' ' :: (qa.question.data ++
            '\n' :: 'A' :: ':' :: ' ' ::
              (qa.answer.data ++ ('\n' :: '\n' :: fmtData (t0 :: tl')))) := by
        rw [show fmtData (qa :: t0 :: tl') =
          qaBlock qa ++ '\n' :: '\n' :: fmtData (t0 :: tl') from rfl,
          qaBlock_shape]
      have hlentot : (fmtData (qa :: t0 :: tl')).length =
          (qaBlock qa).length + 2 + (fmtData (t0 :: tl')).length := by
        rw [show fmtData (qa :: t0 :: tl') =
          qaBlock qa ++ '\n' :: '\n' :: fmtData (t0 :: tl') from rfl]
        simp
        omega
      have hqb : 7 ≤ (qaBlock qa).length := by rw [qaBlock_length]; omega
      obtain ⟨f, rfl⟩ : ∃ f, fuel = f + 3 := by
        refine ⟨fuel - 3, ?_⟩
        rw [hlentot] at hlen
        omega
      have hftl : (fmtData (t0 :: tl')).length ≤ f := by
        rw [hlentot] at hlen
        omega
      rw [hshape]
      rw [show f + 3 = (f + 2) + 1 from rfl, findallGo,
        matchAt_fmt _ _ _ hq ha (Or.inr ⟨_, rfl⟩)]
      show (qa.question.data, qa.answer.data) ::
          findallGo (f + 2) ('\n' :: '\n' :: fmtData (t0 :: tl')) =
        List.map (fun qa => (qa.question.data, qa.answer.data)) (qa :: t0 :: tl')
      rw [show f + 2 = (f + 1) + 1 from rfl, findallGo, matchAt_newline]
      show (qa.question.data, qa.answer.data) ::
          findallGo (f + 1) ('\n' :: fmtData (t0 :: tl')) =
        List.map (fun qa => (qa.question.data, qa.answer.data)) (qa :: t0 :: tl')
      rw [findallGo, matchAt_newline]
      show (qa.question.data, qa.answer.data) ::
          findallGo f (fmtData (t0 :: tl')) =
        List.map (fun qa => (qa.question.data, qa.answer.data)) (qa :: t0 :: tl')
      rw [ih f hsafetl hftl]
      rfl

theorem stripGo_false_line : ∀ (l r : List Char), (∀ c ∈ l, c ≠ '\n') →
    stripHeadersGo false (l ++ r) = l ++ stripHeadersGo false r := by
  intro l
  induction l with
  | nil => intro r _; rfl
  | cons c l' ih =>
    intro r h
    have hc : c ≠ '\n' := h c (List.mem_cons_self c l')
    rw [List.cons_append]
    show stripHeadersGo false (c :: (l' ++ r)) = c :: (l' ++ stripHeadersGo false r)
    rw [stripHeadersGo]
    simp only [Bool.false_and, Bool.false_eq_true, if_false, decide_eq_false hc]
    rw [ih r (fun x hx => h x (List.mem_cons_of_mem c hx))]

theorem stripGo_true_line : ∀ (l r : List Char), l ≠ [] →
    l.head? ≠ some '#' → (∀ c ∈ l, c ≠ '\n') →
    stripHeadersGo true (l ++ r) = l ++ stripHeadersGo false r := by
  intro l r hne hhash h
  obtain ⟨c, l', rfl⟩ : ∃ c l', l = c :: l' := by
    cases l with
    | nil => exact absurd rfl hne
    | cons c l' => exact ⟨c, l', rfl⟩
  have hc : c ≠ '\n' := h c (List.mem_cons_self c l')
  have hch : c ≠ '#' := by
    intro hch
    exact hhash (by rw [hch]; rfl)
  rw [List.cons_append]
  show stripHeadersGo true (c :: (l' ++ r)) = c :: (l' ++ stripHeadersGo false r)
  rw [stripHeadersGo]
  simp only [Bool.true_and, decide_eq_false hch, Bool.false_eq_true, if_false,
    decide_eq_false hc]
  rw [stripGo_false_line l' r (fun x hx => h x (List.mem_cons_of_mem c hx))]

theorem stripGo_false_newline (r : List Char) :
    stripHeadersGo false ('\n' :: r) = '\n' :: stripHeadersGo true r := rfl

theorem stripGo_true_newline (r : List Char) :
    stripHeadersGo true ('\n' :: r) = '\n' :: stripHeadersGo true r := rfl

/-- Character facts about the two lines a pair contributes. -/
theorem qline_no_newline (qa : QAPair) (h : safeText qa.question.data = true) :
    ∀ c ∈ 'Q' :: ':' :: ' ' :: qa.question.data, c ≠ '\n' := by
  intro c hc
  rcases List.mem_cons.mp hc with rfl | hc
  · decide
  rcases List.mem_cons.mp hc with rfl | hc
  · decide
  rcases List.mem_cons.mp hc with rfl | hc
  · decide
  exact safeChar_ne_newline ((safeText_spec h).2.1 c hc)

theorem aline_no_newline (qa : QAPair) (h : safeText qa.answer.data = true) :
    ∀ c ∈ 'A' :: ':' :: ' ' :: qa.answer.data, c ≠ '\n' := by
  intro c hc
  rcases List.mem_cons.mp hc with rfl | hc
  · decide
  rcases List.mem_cons.mp hc with rfl | hc
  · decide
  rcases List.mem_cons.mp hc with rfl | hc
  · decide
  exact safeChar_ne_newline ((safeText_spec h).2.1 c hc)

/-- Header stripping is the identity on a formatted context: no line
starts with `#`. -/
theorem stripHeaders_fmtData : ∀ (pairs : List QAPair), SafePairs pairs →
    stripHeaders (fmtData pairs) = fmtData pairs := by
  intro pairs
  induction pairs with
  | nil => intro _; rfl
  | cons qa tl ih =>
    intro hsafe
    have hq := (hsafe qa (List.mem_cons_self qa tl)).1
    have ha := (hsafe qa (List.mem_cons_self qa tl)).2
    have hsafetl : SafePairs tl := fun p hp => hsafe p (List.mem_cons_of_mem qa hp)
    have hq1 := qline_no_newline qa hq
    have ha1 := aline_no_newline qa ha
    cases tl with
    | nil =>
      show stripHeadersGo true (qaBlock qa) = qaBlock qa
      rw [show qaBlock qa = ('Q' :: ':' :: ' ' :: qa.question.data) ++
        ('\n' :: ('A' :: ':' :: ' ' :: qa.answer.data)) from by simp [qaBlock]]
      rw [stripGo_true_line _ _ (by simp) (by simp) hq1, stripGo_false_newline]
      rw [show ('A' :: ':' :: ' ' :: qa.answer.data) =
        ('A' :: ':' :: ' ' :: qa.answer.data) ++ [] from (List.append_nil _).symm,
        stripGo_true_line _ _ (by simp) (by simp) ha1]
      rfl
    | cons t0 tl' =>
      show stripHeadersGo true (qaBlock qa ++ '\n' :: '\n' :: fmtData (t0 :: tl')) =
        qaBlock qa ++ '\n' :: '\n' :: fmtData (t0 :: tl')
      rw [show qaBlock qa ++ '\n' :: '\n' :: fmtData (t0 :: tl') =
        ('Q' :: ':' :: ' ' :: qa.question.data) ++
          ('\n' :: (('A' :: ':' :: ' ' :: qa.answer.data) ++
            ('\n' :: '\n' :: fmtData (t0 :: tl')))) from by simp [qaBlock]]
      have ih' : stripHeadersGo true (fmtData (t0 :: tl')) = fmtData (t0 :: tl') :=
        ih hsafetl
      rw [stripGo_true_line _ _ (by simp) (by simp) hq1, stripGo_false_newline,
        stripGo_true_line _ _ (by simp) (by simp) ha1, stripGo_false_newline,
        stripGo_true_newline, ih']

theorem data_nl : ("\n" : String).data = ['\n'] := rfl

theorem data_empty : ("" : String).data = [] := rfl

theorem data_Q (s : String) : ("Q: " ++ s).data = 'Q' :: ':' :: ' ' :: s.data := by
  rw [String.data_append]
  rfl

theorem data_A (s : String) : ("A: " ++ s).data = 'A' :: ':' :: ' ' :: s.data := by
  rw [String.data_append]
  rfl

theorem joinNl_cons₂ (x y : String) (rest : List String) :
    joinNl (x :: y :: rest) = x ++ "\n" ++ joinNl (y :: rest) := rfl

theorem joinNl_one (x : String) : joinNl [x] = x := rfl

theorem contextParts_cons (qa : QAPair) (tl : List QAPair) :
    contextParts (qa :: tl) =
      ("Q: " ++ qa.question) :: ("A: " ++ qa.answer) :: "" :: contextParts tl := by
  simp [contextParts]

/-- Joining the parts of a nonempty pair list yields the block text
followed by one trailing newline (contributed by the final blank
separator line). -/
theorem joinNl_contextParts : ∀ (tl : List QAPair) (qa : QAPair),
    (joinNl (contextParts (qa :: tl))).data = fmtData (qa :: tl) ++ ['\n'] := by
  intro tl
  induction tl with
  | nil =>
    intro qa
    rw [contextParts_cons, joinNl_cons₂, joinNl_cons₂,
      show contextParts ([] : List QAPair) = [] from rfl, joinNl_one]
    simp only [String.data_append, data_Q, data_A, data_nl, data_empty]
    show _ = qaBlock qa ++ ['\n']
    simp [qaBlock]
  | cons t0 tl' ih =>
    intro qa
    rw [contextParts_cons qa (t0 :: tl'), joinNl_cons₂, joinNl_cons₂]
    have hrest : joinNl ("" :: contextParts (t0 :: tl')) =
        "" ++ "\n" ++ joinNl (contextParts (t0 :: tl')) := by
      rw [contextParts_cons t0 tl']
      rfl
    rw [hrest]
    simp only [String.data_append, data_Q, data_A, data_nl, data_empty, ih t0]
    show _ = (qaBlock qa ++ '\n' :: '\n' :: fmtData (t0 :: tl')) ++ ['\n']
    simp [qaBlock]

theorem getLast?_append_of_ne_nil {l₁ l₂ : List Char} (h : l₂ ≠ []) :
    (l₁ ++ l₂).getLast? = l₂.getLast? := by
  rw [List.getLast?_append]
  obtain ⟨c, l₂', rfl⟩ : ∃ c l₂', l₂ = c :: l₂' := by
    cases l₂ with
    | nil => exact absurd rfl h
    | cons c l₂' => exact ⟨c, l₂', rfl⟩
  cases hx : (c :: l₂').getLast? with
  | some d => rfl
  | none =>
    rw [List.getLast?_eq_none_iff] at hx
    cases hx

theorem fmtData_head : ∀ (qa : QAPair) (tl : List QAPair),
    ∃ X, fmtData (qa :: tl) = 'Q' :: X := by
  intro qa tl
  cases tl with
  | nil => exact ⟨_, rfl⟩
  | cons t0 tl' => exact ⟨_, rfl⟩

/-- The last character of a formatted nonempty context is the last
character of the final answer, hence not whitespace. -/
theorem fmtData_getLast_safe : ∀ (tl : List QAPair) (qa : QAPair),
    SafePairs (qa :: tl) →
    ∀ c, (fmtData (qa :: tl)).getLast? = some c → isPyWs c = false := by
  intro tl
  induction tl with
  | nil =>
    intro qa hsafe c hc
    obtain ⟨hane, hachars, _, haok, _, _⟩ :=
      safeText_spec (hsafe qa (List.mem_cons_self qa [])).2
    have hshape : fmtData [qa] =
        ('Q' :: ':' :: ' ' :: qa.question.data ++ ['\n', 'A', ':', ' ']) ++
          qa.answer.data := by
      show qaBlock qa = _
      simp [qaBlock]
    rw [hshape, getLast?_append_of_ne_nil hane] at hc
    have hcm : c ∈ qa.answer.data := mem_of_getLast?_eq hc
    refine safeChar_not_ws (hachars c hcm) ?_
    intro hcs
    subst hcs
    exact okSpacing_getLast haok hc
  | cons t0 tl' ih =>
    intro qa hsafe c hc
    have hsafetl : SafePairs (t0 :: tl') :=
      fun p hp => hsafe p (List.mem_cons_of_mem qa hp)
    obtain ⟨X, hX⟩ := fmtData_head t0 tl'
    have hshape : fmtData (qa :: t0 :: tl') =
        (qaBlock qa ++ ['\n', '\n']) ++ fmtData (t0 :: tl') := by
      show qaBlock qa ++ '\n' :: '\n' :: fmtData (t0 :: tl') = _
      simp
    rw [hshape, getLast?_append_of_ne_nil (by rw [hX]; exact List.cons_ne_nil _ _)]
      at hc
    exact ih t0 hsafetl c hc

theorem stripL_append_nl (X : List Char) (hne : X ≠ [])
    (hh : ∀ c, X.head? = some c → isPyWs c = false)
    (hl : ∀ c, X.getLast? = some c → isPyWs c = false) :
    stripL (X ++ ['\n']) = X := by
  unfold stripL
  have h1 : (X ++ ['\n']).dropWhile isPyWs = X ++ ['\n'] := by
    obtain ⟨c, X', rfl⟩ : ∃ c X', X = c :: X' := by
      cases X with
      | nil => exact absurd rfl hne
      | cons c X' => exact ⟨c, X', rfl⟩
    rw [List.cons_append, List.dropWhile_cons, hh c rfl]
    simp
  rw [h1, List.reverse_append]
  show (List.dropWhile isPyWs ('\n' :: X.reverse)).reverse = X
  rw [List.dropWhile_cons]
  have h2 : isPyWs '\n' = true := by decide
  rw [h2]
  simp only [if_true]
  have h3 : X.reverse.dropWhile isPyWs = X.reverse := by
    refine dropWhile_isPyWs_id ?_
    intro c hc
    rw [List.head?_reverse] at hc
    exact hl c hc
  rw [h3, List.reverse_reverse]

/-- The formatted context of a safe pair list is exactly `fmtData`. -/
theorem get_context_data (pairs : List QAPair) (hsafe : SafePairs pairs) :
    (get_context_for_prompt pairs none).data = fmtData pairs := by
  cases pairs with
  | nil => rfl
  | cons qa tl =>
    show stripL (joinNl (contextParts (qa :: tl))).data = fmtData (qa :: tl)
    rw [joinNl_contextParts tl qa]
    obtain ⟨X, hX⟩ := fmtData_head qa tl
    refine stripL_append_nl _ (by rw [hX]; exact List.cons_ne_nil _ _) ?_ ?_
    · intro c hc
      rw [hX, List.head?_cons, Option.some.injEq] at hc
      rw [← hc]
      decide
    · exact fmtData_getLast_safe tl qa hsafe

theorem stripL_id_of_safe {l : List Char} (h : safeText l = true) :
    stripL l = l := by
  obtain ⟨_, hchars, hhead, hok, _, _⟩ := safeText_spec h
  refine stripL_id ?_ ?_
  · intro c hc
    have hcm : c ∈ l := by
      cases l with
      | nil => cases hc
      | cons d tl =>
        rw [List.head?_cons, Option.some.injEq] at hc
        rw [← hc]
        exact List.mem_cons_self d tl
    exact safeChar_not_ws (hchars c hcm) (hhead c hc)
  · intro c hc
    refine safeChar_not_ws (hchars c (mem_of_getLast?_eq hc)) ?_
    intro hcs
    subst hcs
    exact okSpacing_getLast hok hc

/-- Enumerating, cleaning and repacking the raw texts of safe pairs
reproduces their questions and answers. -/
theorem enumFrom_assemble : ∀ (pairs : List QAPair) (n : Nat), SafePairs pairs →
    (((pairs.map (fun qa => (qa.question.data, qa.answer.data))).enumFrom n).filterMap
      (fun p =>
        let question := cleanText p.2.1
        let answer := cleanText p.2.2
        if question ≠ [] ∧ answer ≠ [] then some (mkQAPair question answer p.1)
        else none)).map (fun p => (p.question, p.answer)) =
      pairs.map (fun p => (p.question, p.answer)) := by
  intro pairs
  induction pairs with
  | nil => intro n _; rfl
  | cons qa tl ih =>
    intro n hsafe
    have hq := (hsafe qa (List.mem_cons_self qa tl)).1
    have ha := (hsafe qa (List.mem_cons_self qa tl)).2
    have hsafetl : SafePairs tl := fun p hp => hsafe p (List.mem_cons_of_mem qa hp)
    rw [List.map_cons, List.enumFrom_cons]
    have hf : (fun (p : Nat × List Char × List Char) =>
        let question := cleanText p.2.1
        let answer := cleanText p.2.2
        if question ≠ [] ∧ answer ≠ [] then some (mkQAPair question answer p.1)
        else none) (n, (qa.question.data, qa.answer.data)) =
        some ⟨qa.question, qa.answer, n⟩ := by
      show (if cleanText qa.question.data ≠ [] ∧ cleanText qa.answer.data ≠ [] then
        some (mkQAPair (cleanText qa.question.data) (cleanText qa.answer.data) n)
        else none) = _
      rw [cleanText_id hq, cleanText_id ha,
        if_pos ⟨(safeText_spec hq).1, (safeText_spec ha).1⟩]
      unfold mkQAPair
      rw [stripL_id_of_safe hq, stripL_id_of_safe ha]
    rw [List.filterMap_cons]
    simp only [hf]
    rw [List.map_cons, ih (n + 1) hsafetl]
    simp

/-- Inserting behind equal-or-larger scores is a permutation. -/
theorem insertDesc_perm (x : Nat × QAPair) (l : List (Nat × QAPair)) :
    (insertDesc x l).Perm (x :: l) := by
  induction l with
  | nil => exact List.Perm.refl _
  | cons y ys ih =>
    rw [insertDesc]
    by_cases h : y.1 < x.1
    · simp only [if_pos h]
      exact List.Perm.refl _
    · simp only [if_neg h]
      exact (ih.cons y).trans (List.Perm.swap x y ys)

/-- Insertion preserves the non-increasing score invariant. -/
theorem insertDesc_pairwise (x : Nat × QAPair) (l : List (Nat × QAPair))
    (h : l.Pairwise ScoreGE) : (insertDesc x l).Pairwise ScoreGE := by
  induction l with
  | nil => exact List.pairwise_singleton _ _
  | cons y ys ih =>
    rw [insertDesc]
    rcases List.pairwise_cons.mp h with ⟨hy, hys⟩
    by_cases hlt : y.1 < x.1
    · simp only [if_pos hlt]
      refine List.pairwise_cons.mpr ⟨?_, h⟩
      intro z hz
      rcases List.mem_cons.mp hz with rfl | hz
      · exact Nat.le_of_lt hlt
      · exact Nat.le_trans (hy z hz) (Nat.le_of_lt hlt)
    · simp only [if_neg hlt]
      refine List.pairwise_cons.mpr ⟨?_, ih hys⟩
      intro z hz
      have : z ∈ x :: ys := (insertDesc_perm x ys).mem_iff.mp hz
      rcases List.mem_cons.mp this with rfl | hz'
      · exact Nat.le_of_not_lt hlt
      · exact hy z hz'

/-- Inserting into a sorted list puts an element carrying score `s`
after every element carrying score `s` already present (stability). -/
theorem insertDesc_filter (x : Nat × QAPair) (l : List (Nat × QAPair))
    (h : l.Pairwise ScoreGE) (s : Nat) :
    (insertDesc x l).filter (fun y => y.1 == s) =
      l.filter (fun y => y.1 == s) ++ (if x.1 = s then [x] else []) := by
  induction l with
  | nil =>
    by_cases hx : x.1 = s <;> simp [insertDesc, List.filter_cons, hx]
  | cons y ys ih =>
    rw [insertDesc]
    rcases List.pairwise_cons.mp h with ⟨hy, hys⟩
    by_cases hlt : y.1 < x.1
    · simp only [if_pos hlt]
      by_cases hx : x.1 = s
      · have hempty : (y :: ys).filter (fun z => z.1 == s) = [] := by
          apply List.filter_eq_nil_iff.mpr
          intro z hz
          have hzle : z.1 ≤ y.1 := by
            rcases List.mem_cons.mp hz with rfl | hz'
            · exact Nat.le_refl _
            · exact hy z hz'
          simp only [beq_iff_eq]
          omega
        rw [List.filter_cons_of_pos (by simpa using hx), hempty]
        simp [hx]
      · rw [List.filter_cons_of_neg (by simpa using hx)]
        simp [hx]
    · simp only [if_neg hlt]
      by_cases hyv : y.1 = s
      · rw [List.filter_cons_of_pos (by simpa using hyv),
          List.filter_cons_of_pos (by simpa using hyv), ih hys,
          List.cons_append]
      · rw [List.filter_cons_of_neg (by simpa using hyv),
          List.filter_cons_of_neg (by simpa using hyv), ih hys]

/-- The fold of `sortByScoreDesc`, generalized over the accumulator:
permutation, sortedness, and stability. -/
theorem sortFold_perm (l : List (Nat × QAPair)) :
    ∀ acc, (l.foldl (fun acc x => insertDesc x acc) acc).Perm (acc ++ l) := by
  induction l with
  | nil => intro acc; simp
  | cons x xs ih =>
    intro acc
    refine (ih (insertDesc x acc)).trans ?_
    refine ((insertDesc_perm x acc).append_right xs).trans ?_
    exact List.perm_middle.symm

theorem sortFold_pairwise (l : List (Nat × QAPair)) :
    ∀ acc, acc.Pairwise ScoreGE →
      (l.foldl (fun acc x => insertDesc x acc) acc).Pairwise ScoreGE := by
  induction l with
  | nil => intro acc h; exact h
  | cons x xs ih => intro acc h; exact ih _ (insertDesc_pairwise x acc h)

theorem sortFold_filter (l : List (Nat × QAPair)) (s : Nat) :
    ∀ acc, acc.Pairwise ScoreGE →
      (l.foldl (fun acc x => insertDesc x acc) acc).filter (fun y => y.1 == s) =
        acc.filter (fun y => y.1 == s) ++ l.filter (fun y => y.1 == s) := by
  induction l with
  | nil => intro acc _; simp
  | cons x xs ih =>
    intro acc h
    rw [List.foldl_cons, ih _ (insertDesc_pairwise x acc h),
      insertDesc_filter x acc h s]
    by_cases hx : x.1 = s
    · rw [List.filter_cons_of_pos (by simpa using hx)]
      simp [hx]
    · rw [List.filter_cons_of_neg (by simpa using hx)]
      simp [hx]

/-- The sorted scored list is a permutation of the scored list. -/
theorem sortByScoreDesc_perm (l : List (Nat × QAPair)) :
    (sortByScoreDesc l).Perm l :=
  (sortFold_perm l []).trans (by simp)

/-- The sorted scored list is non-increasing in its scores. -/
theorem sortByScoreDesc_pairwise (l : List (Nat × QAPair)) :
    (sortByScoreDesc l).Pairwise ScoreGE :=
  sortFold_pairwise l [] (List.Pairwise.nil)

/-- Stability: per score class, sorting preserves the original order. -/
theorem sortByScoreDesc_filter (l : List (Nat × QAPair)) (s : Nat) :
    (sortByScoreDesc l).filter (fun y => y.1 == s) =
      l.filter (fun y => y.1 == s) :=
  (sortFold_filter l s [] List.Pairwise.nil).trans (by simp)

/-- Every scored pair carries the keyword score of its entry, and a
positive one. -/
theorem scoredPairs_mem (pairs : List QAPair) (query : String)
    (x : Nat × QAPair) (hx : x ∈ scoredPairs pairs query) :
    x.1 = keywordScore query x.2 ∧ 0 < keywordScore query x.2 := by
  rcases List.mem_filterMap.mp hx with ⟨qa, _, hqa⟩
  by_cases hpos : keywordScore query qa > 0
  · simp only [if_pos hpos] at hqa
    cases hqa
    exact ⟨rfl, hpos⟩
  · simp only [if_neg hpos] at hqa
    cases hqa

/-- Python's `needle in hay` substring test agrees with list-infix. -/
theorem containsSub_iff_infix (needle hay : List Char) :
    containsSub needle hay = true ↔ needle <:+: hay := by
  induction hay with
  | nil =>
    simp only [containsSub, List.isEmpty_iff, List.infix_nil]
  | cons c tl ih =>
    simp only [containsSub, Bool.or_eq_true, List.infix_cons_iff,
      List.isPrefixOf_iff_prefix, ih]

/-- C7 (counterexample): with the backend listing exactly one model
name `"xmistral:7b"`, the availability check for `"mistral"` returns
true even though no listed name starts with the base name `"mistral"`
— the code tests substring containment, not a prefix. -/
theorem C7_counterexample :
    check_model_available "mistral" (some (200, ["xmistral:7b"])) = true ∧
    (["xmistral:7b"].any (fun m =>
      List.isPrefixOf (modelBase "mistral").data m.data)) = false := by
  exact ⟨by decide, by decide⟩

/-- C7 (amended): on a 200 listing the check returns true exactly when
some listed model name CONTAINS the requested identifier's base name
(the part before a `:` tag) as a substring — internal-substring matches
count; a non-200 status or a network failure returns false. -/
theorem C7_substring_containment (model : String) (names : List String) :
    (check_model_available model (some (200, names)) = true ↔
      ∃ m ∈ names, (modelBase model).data <:+: m.data) ∧
    check_model_available model none = false ∧
    (∀ (status : Nat) (names' : List String), status ≠ 200 →
      check_model_available model (some (status, names')) = false) := by
  refine ⟨?_, rfl, fun status names' h => ?_⟩
  · simp [check_model_available, List.any_eq_true, containsSub_iff_infix]
  · simp [check_model_available, if_neg h]

/-- C7 witness: the amended characterization at concrete inputs. -/
theorem C7_substring_containment_witness :
    (check_model_available "mistral:7b" (some (200, ["a", "xxmistralyy"])) = true ↔
      ∃ m ∈ ["a", "xxmistralyy"], (modelBase "mistral:7b").data <:+: m.data) ∧
    check_model_available "mistral:7b" (some (404, ["mistral"])) = false :=
  ⟨(C7_substring_containment "mistral:7b" ["a", "xxmistralyy"]).1,
   (C7_substring_containment "mistral:7b" []).2.2 404 ["mistral"] (by decide)⟩

/-- C6 (counterexample): the assembled prompt contains six numbered
behavioral instructions, not the five the claim states (the sixth
separately forbids fabricating information); counted on a concrete
query and context that themselves contain no numbered lines. -/
theorem C6_counterexample :
    numberedLineCount
      (build_customer_support_prompt "How do I reset my password?" "Q: q\nA: a") = 6 ∧
    (6 : Nat) ≠ 5 := by
  exact ⟨by decide, by decide⟩

/-- C6 (amended): for every query and context, the assembled prompt is
exactly the fixed template — role-framing head, the verbatim context
block, an instruction block containing exactly six numbered behavioral
instructions, then the literal query text and the trailing `Answer:`
cue delimiting where generation begins. -/
theorem C6_prompt_template (question context : String) :
    (build_customer_support_prompt question context).data =
      promptHead.data ++ context.data ++ promptInstructions.data ++
        question.data ++ "\n\nAnswer:".data ∧
    numberedLineCount promptInstructions = 6 ∧
    numberedLineCount promptHead = 0 ∧
    numberedLineCount promptTail = 0 := by
  refine ⟨?_, by decide, by decide, by decide⟩
  simp only [build_customer_support_prompt, promptTail, String.data_append]

/-- C4: keyword search scores each entry as twice the question-token
intersection plus the answer-token intersection; every returned entry
has positive score, at most `K = 5` entries are returned, the returned
sequence is non-increasing in score, and within each score class the
sorted sequence keeps the original ordinal order (stability). -/
theorem C4_keyword_search_ranking (pairs : List QAPair) (query : String) :
    (∀ qa ∈ search_by_keywords pairs query, 0 < keywordScore query qa) ∧
    (search_by_keywords pairs query).length ≤ 5 ∧
    (search_by_keywords pairs query).Pairwise
      (fun a b => keywordScore query b ≤ keywordScore query a) ∧
    (∀ s : Nat, (sortByScoreDesc (scoredPairs pairs query)).filter
        (fun y => y.1 == s) =
      (scoredPairs pairs query).filter (fun y => y.1 == s)) := by
  have hmem : ∀ x ∈ (sortByScoreDesc (scoredPairs pairs query)).take 5,
      x.1 = keywordScore query x.2 ∧ 0 < keywordScore query x.2 := by
    intro x hx
    exact scoredPairs_mem pairs query x
      ((sortByScoreDesc_perm _).mem_iff.mp (List.take_sublist 5 _ |>.mem hx))
  refine ⟨?_, ?_, ?_, fun s => sortByScoreDesc_filter _ s⟩
  · intro qa hqa
    rcases List.mem_map.mp hqa with ⟨x, hx, rfl⟩
    exact (hmem x hx).2
  · calc (search_by_keywords pairs query).length
        = ((sortByScoreDesc (scoredPairs pairs query)).take 5).length :=
          List.length_map _ _
      _ ≤ 5 := by
          rw [List.length_take]
          exact Nat.min_le_left _ _
  · rw [search_by_keywords, List.pairwise_map]
    have hp : ((sortByScoreDesc (scoredPairs pairs query)).take 5).Pairwise
        ScoreGE :=
      List.Pairwise.sublist (List.take_sublist 5 _) (sortByScoreDesc_pairwise _)
    refine hp.imp_of_mem ?_
    intro a b ha hb hab
    have h1 := hmem a ha
    have h2 := hmem b hb
    unfold ScoreGE at hab
    omega

/-- C4 witness: the ranking properties at a concrete knowledge base
and query. -/
theorem C4_keyword_search_ranking_witness :
    0 < keywordScore "policy" ⟨"refund policy", "thirty days", 0⟩ ∧
    (search_by_keywords
      [⟨"refund policy", "thirty days", 0⟩, ⟨"contact support", "email us", 1⟩]
      "policy").length ≤ 5 ∧
    (sortByScoreDesc (scoredPairs
        [⟨"refund policy", "thirty days", 0⟩, ⟨"contact support", "email us", 1⟩]
        "policy")).filter (fun y => y.1 == 2) =
      (scoredPairs
        [⟨"refund policy", "thirty days", 0⟩, ⟨"contact support", "email us", 1⟩]
        "policy").filter (fun y => y.1 == 2) :=
  ⟨(C4_keyword_search_ranking
      [⟨"refund policy", "thirty days", 0⟩, ⟨"contact support", "email us", 1⟩]
      "policy").1 ⟨"refund policy", "thirty days", 0⟩ (by decide),
   (C4_keyword_search_ranking
      [⟨"refund policy", "thirty days", 0⟩, ⟨"contact support", "email us", 1⟩]
      "policy").2.1,
   (C4_keyword_search_ranking
      [⟨"refund policy", "thirty days", 0⟩, ⟨"contact support", "email us", 1⟩]
      "policy").2.2.2 2⟩

/-- C5: when every entry scores zero against the query, `"keyword"`
context retrieval falls back to the full formatted knowledge base,
identical to the `"all"` method, rather than an empty context or an
error. -/
theorem C5_keyword_fallback_full (pairs : List QAPair) (query : String)
    (h : ∀ qa ∈ pairs, keywordScore query qa = 0) :
    get_relevant_context pairs query "keyword" =
      Except.ok (get_context_for_prompt pairs none) ∧
    get_relevant_context pairs query "keyword" =
      get_relevant_context pairs query "all" := by
  have hs : scoredPairs pairs query = [] := by
    apply List.filterMap_eq_nil_iff.mpr
    intro qa hqa
    simp [h qa hqa]
  have hsearch : search_by_keywords pairs query = [] := by
    rw [search_by_keywords, hs]
    rfl
  constructor
  · simp [get_relevant_context, hsearch]
  · simp [get_relevant_context, hsearch]

/-- C5 witness: the fallback at a concrete knowledge base and a query
sharing no token with it. -/
theorem C5_keyword_fallback_full_witness :
    get_relevant_context [⟨"alpha", "beta", 0⟩] "gamma" "keyword" =
      Except.ok (get_context_for_prompt [⟨"alpha", "beta", 0⟩] none) :=
  (C5_keyword_fallback_full [⟨"alpha", "beta", 0⟩] "gamma" (by decide)).1

/-- C2 (code evaluated at the failing input): for a source whose answer
body spans two lines before end of input, the parser keeps only the
first line — the MULTILINE `$` inside the lookahead stops the lazy
answer group at the first line end, so the claimed "all content up to
the next question marker or end of text" is not what the code
extracts (the second line is dropped entirely). -/
theorem C2_multiline_answer_truncated :
    parse_qa_pairs "Q: q\nA: line1\nline2\n" = [⟨"q", "line1", 0⟩] ∧
    (parse_qa_pairs "Q: q\nA: line1\nline2\n").map QAPair.answer = ["line1"] ∧
    ("line1" : String) ≠ "line1 line2" := by
  refine ⟨by decide, by decide, by decide⟩


/-- C8 (amended): the format/re-parse round trip preserves the entry
sequence for every knowledge base whose entry texts are safe — nonempty,
only plain characters separated by single internal spaces (so they are
fixed points of the normalization), and free of embedded `Q:` / `A:`
markers.  Outside this set the round trip can change entries, as the
counterexample shows: normalization is not idempotent in general. -/
theorem C8_roundtrip_on_safe_entries (pairs : List QAPair) (h : SafePairs pairs) :
    (parse_qa_pairs (get_context_for_prompt pairs none)).map
      (fun p => (p.question, p.answer)) =
    pairs.map (fun p => (p.question, p.answer)) := by
  unfold parse_qa_pairs
  rw [get_context_data pairs h, stripHeaders_fmtData pairs h]
  have hfind : findallQA (fmtData pairs) =
      pairs.map (fun qa => (qa.question.data, qa.answer.data)) :=
    findallGo_fmt pairs (fmtData pairs).length h (Nat.le_refl _)
  simp only [hfind]
  exact enumFrom_assemble pairs 0 h

/-- C8 witness: the amended round trip at a concrete two-entry safe
knowledge base. -/
theorem C8_roundtrip_on_safe_entries_witness :
    SafePairs [⟨"hi", "there", 0⟩, ⟨"how are you", "fine thanks", 1⟩] ∧
    (parse_qa_pairs (get_context_for_prompt
        [⟨"hi", "there", 0⟩, ⟨"how are you", "fine thanks", 1⟩] none)).map
      (fun p => (p.question, p.answer)) =
      [("hi", "there"), ("how are you", "fine thanks")] :=
  ⟨by decide, by
    rw [C8_roundtrip_on_safe_entries _ (by decide)]
    decide⟩

end CSA
